import Mathlib

/-!
Verification of the stealable task container in
`src/work_stealing/schedule.rs` (`WorkStealingDeque<T>`).

Embedding conventions:
* The Rust `Vec<Option<Box<T>>>` buffer is represented as a
  `List (Option α)` whose HEAD is the back of the `Vec` — the "active end"
  where `push` appends, where `pop` removes, and from which `steal` scans
  (`iter_mut().rev()`).  List index `i` corresponds to `Vec` index
  `len - 1 - i`.
* `Box<T>` is ownership only, so a task is just a value of `α`.
* The `Mutex` serializes every call, so each operation is a pure function
  from the deque to a result paired with the new deque.
* Rust `Result<Option<Box<T>>, Status>` becomes `Except Status (Option α)`.
* The `capacity` argument of `new` only sizes initial storage and has no
  observable effect, so it is ignored by the model exactly as
  `Vec::with_capacity` leaves the vector empty.
-/

/-- Rust enum `Status { Empty, Abort }`, the error side of `pop`. -/
inductive Status where
  | Empty : Status
  | Abort : Status
  deriving DecidableEq, Repr

/-- Rust `type Buffer<T> = Vec<Option<Box<T>>>;` with the active end (the
`Vec` back) at the list head.  A `some` slot is live, a `none` slot is a
tombstone. -/
abbrev Buffer (α : Type) := List (Option α)

/-- Rust `struct WorkStealingDeque<T> { buffer: Mutex<Buffer<T>> }`.  The
mutex serializes calls, so the model holds the buffer directly. -/
structure WorkStealingDeque (α : Type) where
  buffer : Buffer α
  deriving DecidableEq, Repr

namespace WorkStealingDeque

/-- Rust `WorkStealingDeque::new(capacity)`: an empty buffer;
`Vec::with_capacity` only reserves storage. -/
def new (α : Type) (capacity : Nat) : WorkStealingDeque α := ⟨[]⟩

/-- Rust `WorkStealingDeque::push(task)`: `buffer.push(Some(task))`, which
appends a live slot at the active end (the list head in this encoding). -/
def push (d : WorkStealingDeque α) (task : α) : WorkStealingDeque α :=
  ⟨some task :: d.buffer⟩

/-- Loop body of Rust `pop`: `while let Some(slot) = buffer.pop { if
slot.is_some { return Ok(slot) } }` followed by `Err(Abort)`.  Each
iteration removes the slot at the active end; tombstones are discarded. -/
def popLoop : Buffer α → Except Status (Option α) × Buffer α
  | [] => (.error .Abort, [])
  | slot :: rest =>
    if slot.isSome then (.ok slot, rest)
    else popLoop rest

/-- Rust `WorkStealingDeque::pop`: `Err(Empty)` on an empty buffer,
otherwise the scan-and-discard loop `popLoop`. -/
def pop (d : WorkStealingDeque α) : Except Status (Option α) × WorkStealingDeque α :=
  if d.buffer.isEmpty then (.error .Empty, d)
  else
    match popLoop d.buffer with
    | (r, b) => (r, ⟨b⟩)

/-- Loop body of Rust `steal`: `for slot in buffer.iter_mut().rev { if
slot.is_some { return slot.take() } }`.  The first live slot found from
the active end is emptied in place (`Option::take` leaves `None`); every
slot keeps its position. -/
def stealLoop : Buffer α → Option α × Buffer α
  | [] => (none, [])
  | slot :: rest =>
    if slot.isSome then (slot, none :: rest)
    else
      match stealLoop rest with
      | (r, b) => (r, slot :: b)

/-- Rust `WorkStealingDeque::steal`: `None` on an empty buffer, otherwise
the in-place scan `stealLoop`. -/
def steal (d : WorkStealingDeque α) : Option α × WorkStealingDeque α :=
  if d.buffer.isEmpty then (none, d)
  else
    match stealLoop d.buffer with
    | (r, b) => (r, ⟨b⟩)

end WorkStealingDeque

/-- Tasks currently held live in a buffer, listed from the active end. -/
def lives (b : Buffer α) : List α := b.filterMap id

/-- Push a whole list of tasks in order (first element pushed first). -/
def pushAll (d : WorkStealingDeque α) (l : List α) : WorkStealingDeque α :=
  l.foldl WorkStealingDeque.push d

/-- Call `pop` a given number of times, collecting every result in call
order together with the final deque. -/
def popN : Nat → WorkStealingDeque α → List (Except Status (Option α)) × WorkStealingDeque α
  | 0, d => ([], d)
  | n + 1, d =>
    match d.pop with
    | (r, d2) =>
      match popN n d2 with
      | (rs, d3) => (r :: rs, d3)

/-- The three operations a caller can invoke on the container. -/
inductive Op where
  | push : Op
  | pop : Op
  | steal : Op

/-- Trace state for the operational semantics: the deque, a counter that
labels each pushed task instance with a fresh identifier, and the list of
task instances returned so far by successful take operations. -/
structure SchedState where
  deque : WorkStealingDeque Nat
  nextId : Nat
  delivered : List Nat

/-- A freshly constructed container with no operations performed. -/
def SchedState.init : SchedState :=
  { deque := WorkStealingDeque.new Nat 0, nextId := 0, delivered := [] }

/-- One operation applied to the trace state.  `push` stores the next
fresh identifier; `pop` and `steal` append the returned task, when there
is one, to `delivered`. -/
def stepOp (s : SchedState) : Op → SchedState
  | Op.push =>
    { deque := s.deque.push s.nextId, nextId := s.nextId + 1,
      delivered := s.delivered }
  | Op.pop =>
    match s.deque.pop with
    | (Except.ok (some t), d2) =>
      { deque := d2, nextId := s.nextId, delivered := s.delivered ++ [t] }
    | (Except.ok none, d2) =>
      { deque := d2, nextId := s.nextId, delivered := s.delivered }
    | (Except.error _, d2) =>
      { deque := d2, nextId := s.nextId, delivered := s.delivered }
  | Op.steal =>
    match s.deque.steal with
    | (some t, d2) =>
      { deque := d2, nextId := s.nextId, delivered := s.delivered ++ [t] }
    | (none, d2) =>
      { deque := d2, nextId := s.nextId, delivered := s.delivered }

/-- Run a whole sequence of operations from the fresh container. -/
def run (ops : List Op) : SchedState := ops.foldl stepOp SchedState.init

/-- Trace invariant: live task identifiers in the buffer together with
the delivered identifiers are pairwise distinct, and all of them were
issued by some past push. -/
def TraceInv (s : SchedState) : Prop :=
  (lives s.deque.buffer ++ s.delivered).Nodup ∧
    ∀ x ∈ lives s.deque.buffer ++ s.delivered, x < s.nextId

/-- Deque built as in the Rust unit test `test_steal`: push 1, push 2,
push 3 onto a new container with capacity hint 10. -/
def testDeque3 : WorkStealingDeque Nat :=
  (((WorkStealingDeque.new Nat 10).push 1).push 2).push 3

/-- Deque with a single pushed task, as in item 5 of the testable
properties of the spec. -/
def testDeque1 : WorkStealingDeque Nat :=
  (WorkStealingDeque.new Nat 10).push 1

namespace WorkStealingDeque

theorem popLoop_allNone (b : Buffer α) (h : ∀ s ∈ b, s = none) :
    popLoop b = (.error .Abort, ([] : Buffer α)) := by
  induction b with
  | nil => rfl
  | cons slot rest ih =>
    have hs : slot = none := h slot (List.mem_cons_self ..)
    subst hs
    simp only [popLoop, Option.isSome_none, Bool.false_eq_true, if_false]
    exact ih fun s hs2 => h s (List.mem_cons_of_mem _ hs2)

theorem popLoop_live (pre : Buffer α) (h : ∀ s ∈ pre, s = none) (t : α)
    (rest : Buffer α) :
    popLoop (pre ++ some t :: rest) = (.ok (some t), rest) := by
  induction pre with
  | nil => simp [popLoop]
  | cons slot pre ih =>
    have hs : slot = none := h slot (List.mem_cons_self ..)
    subst hs
    simp only [List.cons_append, popLoop, Option.isSome_none, Bool.false_eq_true,
      if_false]
    exact ih fun s hs2 => h s (List.mem_cons_of_mem _ hs2)

theorem popLoop_length_le (b : Buffer α) :
    (popLoop b).snd.length ≤ b.length := by
  induction b with
  | nil => simp [popLoop]
  | cons slot rest ih =>
    by_cases hs : slot.isSome
    · simp [popLoop, hs]
    · simp only [popLoop, hs, if_false]
      exact le_trans ih (Nat.le_succ _)

theorem stealLoop_allNone (b : Buffer α) (h : ∀ s ∈ b, s = none) :
    stealLoop b = (none, b) := by
  induction b with
  | nil => rfl
  | cons slot rest ih =>
    have hs : slot = none := h slot (List.mem_cons_self ..)
    subst hs
    simp only [stealLoop, Option.isSome_none, Bool.false_eq_true, if_false]
    rw [ih fun s hs2 => h s (List.mem_cons_of_mem _ hs2)]

theorem stealLoop_live (pre : Buffer α) (h : ∀ s ∈ pre, s = none) (t : α)
    (rest : Buffer α) :
    stealLoop (pre ++ some t :: rest) = (some t, pre ++ none :: rest) := by
  induction pre with
  | nil => simp [stealLoop]
  | cons slot pre ih =>
    have hs : slot = none := h slot (List.mem_cons_self ..)
    subst hs
    simp only [List.cons_append, stealLoop, Option.isSome_none, Bool.false_eq_true,
      if_false, List.append_eq]
    rw [ih fun s hs2 => h s (List.mem_cons_of_mem _ hs2)]

theorem stealLoop_length (b : Buffer α) :
    (stealLoop b).snd.length = b.length := by
  induction b with
  | nil => rfl
  | cons slot rest ih =>
    by_cases hs : slot.isSome
    · simp [stealLoop, hs]
    · simp only [stealLoop, hs, if_false]
      cases hr : stealLoop rest with
      | mk r b2 =>
        simp only [List.length_cons]
        rw [hr] at ih
        simp [ih]

/-- Every buffer is either all tombstones, or splits as an all-tombstone
stretch at the active end followed by its first live slot. -/
theorem buffer_decomp (b : Buffer α) :
    (∀ s ∈ b, s = none) ∨
      ∃ pre t rest, b = pre ++ some t :: rest ∧ ∀ s ∈ pre, s = none := by
  induction b with
  | nil => left; intro s hs; cases hs
  | cons slot rest ih =>
    cases slot with
    | some t => exact Or.inr ⟨[], t, rest, rfl, by intro s hs; cases hs⟩
    | none =>
      rcases ih with h | ⟨pre, t, r, hb, hp⟩
      · left
        intro s hs
        rcases List.mem_cons.1 hs with h1 | h2
        · exact h1
        · exact h s h2
      · right
        refine ⟨none :: pre, t, r, by rw [hb, List.cons_append], ?_⟩
        intro s hs
        rcases List.mem_cons.1 hs with h1 | h2
        · exact h1
        · exact hp s h2

theorem pop_of_empty (d : WorkStealingDeque α) (h : d.buffer = []) :
    d.pop = (.error .Empty, d) := by
  simp [pop, h]

theorem pop_of_allNone (d : WorkStealingDeque α) (hne : d.buffer ≠ [])
    (h : ∀ s ∈ d.buffer, s = none) :
    d.pop = (.error .Abort, (⟨[]⟩ : WorkStealingDeque α)) := by
  rw [pop, if_neg (by simpa using hne), popLoop_allNone d.buffer h]

theorem pop_of_live (d : WorkStealingDeque α) (pre : Buffer α) (t : α)
    (rest : Buffer α) (hb : d.buffer = pre ++ some t :: rest)
    (hp : ∀ s ∈ pre, s = none) :
    d.pop = (.ok (some t), (⟨rest⟩ : WorkStealingDeque α)) := by
  have hne : d.buffer ≠ [] := by
    rw [hb]; exact List.append_ne_nil_of_right_ne_nil _ (by simp)
  rw [pop, if_neg (by simpa using hne), hb, popLoop_live pre hp t rest]

theorem steal_of_allNone (d : WorkStealingDeque α) (h : ∀ s ∈ d.buffer, s = none) :
    d.steal = (none, d) := by
  rw [steal]
  by_cases he : d.buffer.isEmpty
  · rw [if_pos he]
  · rw [if_neg he, stealLoop_allNone d.buffer h]

theorem steal_of_live (d : WorkStealingDeque α) (pre : Buffer α) (t : α)
    (rest : Buffer α) (hb : d.buffer = pre ++ some t :: rest)
    (hp : ∀ s ∈ pre, s = none) :
    d.steal = (some t, (⟨pre ++ none :: rest⟩ : WorkStealingDeque α)) := by
  have hne : d.buffer ≠ [] := by
    rw [hb]; exact List.append_ne_nil_of_right_ne_nil _ (by simp)
  rw [steal, if_neg (by simpa using hne), hb, stealLoop_live pre hp t rest]

end WorkStealingDeque

theorem lives_cons_some (t : α) (b : Buffer α) :
    lives (some t :: b) = t :: lives b := by
  simp [lives, List.filterMap_cons]

theorem lives_allNone (b : Buffer α) (h : ∀ s ∈ b, s = none) : lives b = [] := by
  induction b with
  | nil => rfl
  | cons slot rest ih =>
    have hs : slot = none := h slot (List.mem_cons_self ..)
    subst hs
    simp only [lives, List.filterMap_cons, id]
    exact ih fun s hs2 => h s (List.mem_cons_of_mem _ hs2)

theorem lives_split (pre : Buffer α) (h : ∀ s ∈ pre, s = none) (t : α)
    (rest : Buffer α) :
    lives (pre ++ some t :: rest) = t :: lives rest := by
  have h0 : lives pre = [] := lives_allNone pre h
  simp only [lives] at h0 ⊢
  rw [List.filterMap_append, h0]
  simp [List.filterMap_cons]

theorem lives_tombstoned (pre : Buffer α) (h : ∀ s ∈ pre, s = none)
    (rest : Buffer α) :
    lives (pre ++ none :: rest) = lives rest := by
  have h0 : lives pre = [] := lives_allNone pre h
  simp only [lives] at h0 ⊢
  rw [List.filterMap_append, h0]
  simp [List.filterMap_cons]

/-- Delivering the task at the head of the live list keeps the combined
live-plus-delivered list duplicate-free and bounded. -/
theorem deliver_preserves (t : Nat) (l m : List Nat) (n : Nat)
    (h1 : (t :: (l ++ m)).Nodup) (h2 : ∀ x ∈ t :: (l ++ m), x < n) :
    (l ++ (m ++ [t])).Nodup ∧ ∀ x ∈ l ++ (m ++ [t]), x < n := by
  have hperm : List.Perm (l ++ (m ++ [t])) (t :: (l ++ m)) := by
    rw [(List.append_assoc l m [t]).symm]
    exact List.perm_append_singleton t (l ++ m)
  exact ⟨hperm.symm.nodup h1, fun x hx => h2 x (hperm.mem_iff.1 hx)⟩

theorem traceInv_init : TraceInv SchedState.init := by
  constructor
  · simp [SchedState.init, lives, WorkStealingDeque.new]
  · intro x hx
    simp [SchedState.init, lives, WorkStealingDeque.new] at hx

theorem traceInv_step (s : SchedState) (h : TraceInv s) (op : Op) :
    TraceInv (stepOp s op) := by
  obtain ⟨hnd, hlt⟩ := h
  cases op with
  | push =>
    simp only [stepOp, TraceInv]
    constructor
    · rw [show (s.deque.push s.nextId).buffer = some s.nextId :: s.deque.buffer
        from rfl, lives_cons_some, List.cons_append]
      refine List.nodup_cons.2 ⟨?_, hnd⟩
      intro hmem
      exact absurd (hlt _ hmem) (Nat.lt_irrefl _)
    · intro x hx
      rw [show (s.deque.push s.nextId).buffer = some s.nextId :: s.deque.buffer
        from rfl, lives_cons_some, List.cons_append] at hx
      rcases List.mem_cons.1 hx with h1 | h2
      · omega
      · exact Nat.lt_succ_of_lt (hlt x h2)
  | pop =>
    rcases WorkStealingDeque.buffer_decomp s.deque.buffer with hall | ⟨pre, t, rest, hb, hp⟩
    · by_cases hemp : s.deque.buffer = []
      · have hpop := WorkStealingDeque.pop_of_empty s.deque hemp
        simp only [stepOp, hpop, TraceInv]
        exact ⟨hnd, hlt⟩
      · have hpop := WorkStealingDeque.pop_of_allNone s.deque hemp hall
        simp only [stepOp, hpop, TraceInv]
        have h0 : lives s.deque.buffer = [] := lives_allNone _ hall
        rw [h0] at hnd hlt
        exact ⟨hnd, hlt⟩
    · have hpop := WorkStealingDeque.pop_of_live s.deque pre t rest hb hp
      simp only [stepOp, hpop, TraceInv]
      have hl : lives s.deque.buffer = t :: lives rest := by
        rw [hb]; exact lives_split pre hp t rest
      rw [hl, List.cons_append] at hnd hlt
      exact deliver_preserves t (lives rest) s.delivered s.nextId hnd hlt
  | steal =>
    rcases WorkStealingDeque.buffer_decomp s.deque.buffer with hall | ⟨pre, t, rest, hb, hp⟩
    · have hsteal := WorkStealingDeque.steal_of_allNone s.deque hall
      simp only [stepOp, hsteal, TraceInv]
      exact ⟨hnd, hlt⟩
    · have hsteal := WorkStealingDeque.steal_of_live s.deque pre t rest hb hp
      simp only [stepOp, hsteal, TraceInv]
      have hl : lives s.deque.buffer = t :: lives rest := by
        rw [hb]; exact lives_split pre hp t rest
      rw [hl, List.cons_append] at hnd hlt
      have hl2 : lives (pre ++ none :: rest) = lives rest :=
        lives_tombstoned pre hp rest
      rw [show lives (WorkStealingDeque.mk (pre ++ none :: rest)).buffer
        = lives rest from hl2]
      exact deliver_preserves t (lives rest) s.delivered s.nextId hnd hlt

theorem traceInv_run (ops : List Op) : TraceInv (run ops) := by
  have key : ∀ (l : List Op) (s : SchedState), TraceInv s →
      TraceInv (l.foldl stepOp s) := by
    intro l
    induction l with
    | nil => intro s hs; exact hs
    | cons op l ih => intro s hs; exact ih _ (traceInv_step s hs op)
  exact key ops SchedState.init traceInv_init

/-- C1: over every sequence of push, pop and steal operations from a new
container, the task instances returned by successful take operations (pop
or steal) are pairwise distinct — no task instance is delivered to two
successful calls — and each was introduced by some earlier push. -/
theorem no_task_delivered_twice (ops : List Op) :
    (run ops).delivered.Nodup ∧
      ∀ x ∈ (run ops).delivered, x < (run ops).nextId := by
  obtain ⟨hnd, hlt⟩ := traceInv_run ops
  exact ⟨hnd.of_append_right, fun x hx => hlt x (List.mem_append_right _ hx)⟩

theorem pushAll_buffer (l : List α) (d : WorkStealingDeque α) :
    (pushAll d l).buffer = l.reverse.map some ++ d.buffer := by
  induction l generalizing d with
  | nil => simp [pushAll]
  | cons a l ih =>
    show (pushAll (d.push a) l).buffer = (a :: l).reverse.map some ++ d.buffer
    rw [ih (d.push a), List.reverse_cons, List.map_append, List.append_assoc]
    rfl

theorem popN_map_some (m : List α) :
    popN m.length (⟨m.map some⟩ : WorkStealingDeque α)
      = (m.map fun t => Except.ok (some t), (⟨[]⟩ : WorkStealingDeque α)) := by
  induction m with
  | nil => rfl
  | cons a m ih =>
    have hpop : (⟨some a :: m.map some⟩ : WorkStealingDeque α).pop
        = (.ok (some a), (⟨m.map some⟩ : WorkStealingDeque α)) :=
      WorkStealingDeque.pop_of_live _ [] a (m.map some) rfl
        (by intro s hs; cases hs)
    simp only [List.length_cons, List.map_cons, popN, hpop, ih]

/-- C2: pushing any list of tasks onto a new container and then calling
pop once per task makes every pop succeed, returning the tasks in strict
reverse order of insertion and leaving the buffer empty. -/
theorem pushAll_popN_reverse_order (l : List α) :
    popN l.length (pushAll (WorkStealingDeque.new α l.length) l)
      = (l.reverse.map fun t => Except.ok (some t),
         (⟨[]⟩ : WorkStealingDeque α)) := by
  have hb : (pushAll (WorkStealingDeque.new α l.length) l).buffer
      = l.reverse.map some := by
    rw [pushAll_buffer]
    simp [WorkStealingDeque.new]
  have he : pushAll (WorkStealingDeque.new α l.length) l
      = (⟨l.reverse.map some⟩ : WorkStealingDeque α) := by
    calc pushAll (WorkStealingDeque.new α l.length) l
        = ⟨(pushAll (WorkStealingDeque.new α l.length) l).buffer⟩ := rfl
      _ = ⟨l.reverse.map some⟩ := by rw [hb]
  rw [he]
  have hm := popN_map_some (α := α) l.reverse
  rw [List.length_reverse] at hm
  exact hm

/-- C3: pop signals `Empty` exactly when the buffer is empty at call
time, signals `Abort` exactly when the buffer is non-empty but holds only
tombstones, otherwise returns a task; it never returns `Ok(None)`. -/
theorem pop_result_trichotomy (d : WorkStealingDeque α) :
    ((d.pop).fst = .error .Empty ↔ d.buffer.length = 0) ∧
    ((d.pop).fst = .error .Abort ↔ (d.buffer ≠ [] ∧ ∀ s ∈ d.buffer, s = none)) ∧
    ((∃ t, (d.pop).fst = .ok (some t)) ↔ ∃ s ∈ d.buffer, s ≠ none) ∧
    (d.pop).fst ≠ .ok none := by
  rcases WorkStealingDeque.buffer_decomp d.buffer with hall | ⟨pre, t, rest, hb, hp⟩
  · by_cases hemp : d.buffer = []
    · rw [WorkStealingDeque.pop_of_empty d hemp]
      refine ⟨by simp [hemp], by simp [hemp], ?_, by simp⟩
      constructor
      · rintro ⟨t, ht⟩; exact absurd ht (by simp)
      · rintro ⟨s, hs, _⟩; rw [hemp] at hs; cases hs
    · rw [WorkStealingDeque.pop_of_allNone d hemp hall]
      have hlen : d.buffer.length ≠ 0 := fun h0 =>
        hemp (List.length_eq_zero.1 h0)
      refine ⟨by simp [hlen], ⟨fun _ => ⟨hemp, hall⟩, fun _ => rfl⟩, ?_, by simp⟩
      constructor
      · rintro ⟨t, ht⟩; exact absurd ht (by simp)
      · rintro ⟨s, hs, hsn⟩; exact absurd (hall s hs) hsn
  · rw [WorkStealingDeque.pop_of_live d pre t rest hb hp]
    have hmem : some t ∈ d.buffer := by
      rw [hb]; exact List.mem_append_right _ (List.mem_cons_self ..)
    have hlen : d.buffer.length ≠ 0 := fun h0 => by
      rw [List.length_eq_zero.1 h0] at hmem; cases hmem
    refine ⟨by simp [hlen], ?_, ?_, by simp⟩
    · simp only [Prod.fst]
      constructor
      · intro habs; exact absurd habs (by simp)
      · rintro ⟨_, hnone⟩
        exact absurd (hnone (some t) hmem) (by simp)
    · constructor
      · intro _; exact ⟨some t, hmem, by simp⟩
      · intro _; exact ⟨t, rfl⟩

/-- C4: steal scans the buffer from the active end inward, returns the
task of the first live slot and converts exactly that slot to a
tombstone; when no live slot exists (empty buffer or all tombstones) it
returns the single unified nothing-available signal `none` and leaves the
deque unchanged. -/
theorem steal_first_live_from_active_end (d : WorkStealingDeque α) :
    ((∀ s ∈ d.buffer, s = none) → d.steal = (none, d)) ∧
    (∀ pre t rest, d.buffer = pre ++ some t :: rest → (∀ s ∈ pre, s = none) →
      d.steal = (some t, (⟨pre ++ none :: rest⟩ : WorkStealingDeque α))) :=
  ⟨fun h => WorkStealingDeque.steal_of_allNone d h,
   fun pre t rest hb hp => WorkStealingDeque.steal_of_live d pre t rest hb hp⟩

/-- Witness for C4 on a buffer whose active end holds one tombstone
before the first live slot. -/
theorem steal_first_live_from_active_end_witness :
    (⟨[none, some 5, some 3]⟩ : WorkStealingDeque Nat).steal
      = (some 5, (⟨[none, none, some 3]⟩ : WorkStealingDeque Nat)) :=
  (steal_first_live_from_active_end _).2 [none] 5 [some 3] rfl (by decide)

/-- C5: on every deque state, push grows the buffer length by exactly
one, pop never grows it, and steal leaves it exactly unchanged. -/
theorem length_effects (d : WorkStealingDeque α) (t : α) :
    (d.push t).buffer.length = d.buffer.length + 1 ∧
    (d.pop).snd.buffer.length ≤ d.buffer.length ∧
    (d.steal).snd.buffer.length = d.buffer.length := by
  refine ⟨rfl, ?_, ?_⟩
  · rw [WorkStealingDeque.pop]
    by_cases he : d.buffer.isEmpty
    · rw [if_pos he]
    · rw [if_neg he]
      cases hq : WorkStealingDeque.popLoop d.buffer with
      | mk r b =>
        have hle := WorkStealingDeque.popLoop_length_le d.buffer
        rw [hq] at hle
        exact hle
  · rw [WorkStealingDeque.steal]
    by_cases he : d.buffer.isEmpty
    · rw [if_pos he]
    · rw [if_neg he]
      cases hq : WorkStealingDeque.stealLoop d.buffer with
      | mk r b =>
        have hlen := WorkStealingDeque.stealLoop_length d.buffer
        rw [hq] at hlen
        exact hlen

/-- C6: when the buffer is a stretch of tombstones at the active end
followed by a live slot, pop physically discards those tombstones and
removes the live slot, while steal keeps every slot in place and only
turns the claimed live slot into a tombstone. -/
theorem pop_discards_steal_preserves (d : WorkStealingDeque α)
    (pre : Buffer α) (t : α) (rest : Buffer α)
    (hb : d.buffer = pre ++ some t :: rest) (hp : ∀ s ∈ pre, s = none) :
    d.pop = (.ok (some t), (⟨rest⟩ : WorkStealingDeque α)) ∧
      d.steal = (some t, (⟨pre ++ none :: rest⟩ : WorkStealingDeque α)) :=
  ⟨WorkStealingDeque.pop_of_live d pre t rest hb hp,
   WorkStealingDeque.steal_of_live d pre t rest hb hp⟩

/-- Witness for C6 on a concrete buffer with a tombstone at the active
end: pop shrinks the buffer to the tail past the live slot, steal only
blanks the live slot. -/
theorem pop_discards_steal_preserves_witness :
    (⟨[none, some 4, none]⟩ : WorkStealingDeque Nat).pop
        = (.ok (some 4), (⟨[none]⟩ : WorkStealingDeque Nat)) ∧
      (⟨[none, some 4, none]⟩ : WorkStealingDeque Nat).steal
        = (some 4, (⟨[none, none, none]⟩ : WorkStealingDeque Nat)) :=
  pop_discards_steal_preserves _ [none] 4 [none] rfl (by decide)

/-- C7: from a new container, after push(1), push(2), push(3), four
successive steal calls return task 3, task 2, task 1 and then
nothing-available, exactly as in the Rust unit test `test_steal`. -/
theorem steal_order_concrete :
    testDeque3.steal.fst = some 3 ∧
    testDeque3.steal.snd.steal.fst = some 2 ∧
    testDeque3.steal.snd.steal.snd.steal.fst = some 1 ∧
    testDeque3.steal.snd.steal.snd.steal.snd.steal.fst = none :=
  ⟨rfl, rfl, rfl, rfl⟩

/-- C8: from a new container, after push(1), steal returns task 1 and
leaves the sole slot as a tombstone, and the following pop returns
`Abort`. -/
theorem steal_then_pop_abort_concrete :
    testDeque1.steal.fst = some 1 ∧
    testDeque1.steal.snd.buffer = [none] ∧
    testDeque1.steal.snd.pop.fst = Except.error Status.Abort :=
  ⟨rfl, rfl, rfl⟩

/-- C9: whenever pop returns `Abort` it has discarded every slot, leaving
the buffer empty, so an immediately following pop returns `Empty` — never
`Abort` twice in a row. -/
theorem pop_abort_empties_buffer (d : WorkStealingDeque α)
    (h : (d.pop).fst = .error .Abort) :
    (d.pop).snd.buffer = [] ∧ ((d.pop).snd.pop).fst = .error .Empty := by
  rcases WorkStealingDeque.buffer_decomp d.buffer with hall | ⟨pre, t, rest, hb, hp⟩
  · by_cases hemp : d.buffer = []
    · rw [WorkStealingDeque.pop_of_empty d hemp] at h
      simp at h
    · rw [WorkStealingDeque.pop_of_allNone d hemp hall]
      exact ⟨rfl, rfl⟩
  · rw [WorkStealingDeque.pop_of_live d pre t rest hb hp] at h
    simp at h

/-- Witness for C9 on the buffer holding a single tombstone. -/
theorem pop_abort_empties_buffer_witness :
    ((⟨[none]⟩ : WorkStealingDeque Nat).pop).snd.buffer = [] ∧
      (((⟨[none]⟩ : WorkStealingDeque Nat).pop).snd.pop).fst
        = Except.error Status.Empty :=
  pop_abort_empties_buffer _ rfl

theorem getElem?_append_cons (pre : List β) (x : β) (rest : List β) :
    (pre ++ x :: rest)[pre.length]? = some x := by
  induction pre with
  | nil => simp
  | cons a pre ih =>
    simp only [List.cons_append, List.length_cons, List.getElem?_cons_succ]
    exact ih

theorem set_append_cons (pre : List β) (x y : β) (rest : List β) :
    (pre ++ x :: rest).set pre.length y = pre ++ y :: rest := by
  induction pre with
  | nil => rfl
  | cons a pre ih =>
    simp only [List.cons_append, List.length_cons, List.set_cons_succ]
    rw [ih]

/-- C10: steal mutates at most one slot — when it returns
nothing-available the buffer is left entirely unchanged, and on success
the new buffer is the old one with exactly the claimed live slot
overwritten by a tombstone, every other slot keeping its contents. -/
theorem steal_frame (d : WorkStealingDeque α) :
    ((d.steal).fst = none → (d.steal).snd = d) ∧
    (∀ t, (d.steal).fst = some t →
      ∃ i, i < d.buffer.length ∧ d.buffer[i]? = some (some t) ∧
        (d.steal).snd.buffer = d.buffer.set i none) := by
  rcases WorkStealingDeque.buffer_decomp d.buffer with hall | ⟨pre, t, rest, hb, hp⟩
  · rw [WorkStealingDeque.steal_of_allNone d hall]
    refine ⟨fun _ => rfl, fun t2 ht => ?_⟩
    exact absurd ht (by simp)
  · rw [WorkStealingDeque.steal_of_live d pre t rest hb hp]
    constructor
    · intro hn
      exact absurd hn (by simp)
    · intro t2 ht
      have ht2 : t = t2 := by simpa using ht
      subst ht2
      refine ⟨pre.length, ?_, ?_, ?_⟩
      · rw [hb, List.length_append, List.length_cons]
        omega
      · rw [hb]
        exact getElem?_append_cons pre (some t) rest
      · rw [hb]
        exact (set_append_cons pre (some t) none rest).symm

/-- Witness for C10 on an all-tombstone buffer: the failed steal leaves
the deque untouched. -/
theorem steal_frame_witness :
    ((⟨[none]⟩ : WorkStealingDeque Nat).steal).snd
      = (⟨[none]⟩ : WorkStealingDeque Nat) :=
  (steal_frame _).1 rfl

-- Sanity checks mirroring the Rust unit test `test_steal`.
example :
    (((((WorkStealingDeque.new Nat 10).push 1).push 2).push 3).steal).fst = some 3 := rfl
example :
    ((((((WorkStealingDeque.new Nat 10).push 1).push 2).push 3).steal).snd.steal).fst
      = some 2 := rfl
example :
    (((WorkStealingDeque.new Nat 10).push 1).steal).snd.buffer = [none] := rfl
example :
    ((((WorkStealingDeque.new Nat 10).push 1).steal).snd.pop).fst
      = Except.error Status.Abort := rfl
example : ((WorkStealingDeque.new Nat 10).pop).fst = Except.error Status.Empty := rfl
